import Mathlib

/-!
Shallow embedding of the pysetta extraction, merge and render pipeline
(src/pysetta/lib/utils.py, src/pysetta/lib/constants.py and
src/pysetta/lib/command.py).

Modelling conventions:
* Python str is Lean String; scanning works on List Char (String.data).
* pathlib.Path values are opaque strings; path arithmetic such as
  relative_to, with_suffix and joinpath is an external collaborator and is
  modelled by the path-valued functions stored on Language.
* The sha3-224 hex digest from hashlib is an external primitive and is
  passed around as an abstract parameter hash : String → String.
* The YAML codec from ruamel.yaml is an external collaborator: the file
  system maps a path to the already parsed persisted document, and
  deserialize turns such a document into Translations as in utils.py lines
  250-263; a missing file surfaces as a file-not-found error from Path.open.
* Python exceptions become Except errors; the raising order follows the
  statement order of the source.
-/

namespace Pysetta

/-- Whitespace as stripped by Python str.strip; the exotic unicode spaces
are omitted, no claim exercises them. -/
def isPySpace (c : Char) : Bool :=
  c = ' ' || c = '\t' || c = '\n' || c = '\r' || c = '\x0b' || c = '\x0c'

/-- Python str.strip: drop leading and trailing whitespace. -/
def strip (s : String) : String :=
  ⟨((s.data.dropWhile isPySpace).reverse.dropWhile isPySpace).reverse⟩

/-- Code-point comparison of character lists, as Python uses for sorted. -/
def charListLe : List Char → List Char → Bool
  | [], _ => true
  | _ :: _, [] => false
  | a :: as, b :: bs => if a = b then charListLe as bs else decide (a < b)

/-- Code-point comparison of strings. -/
def strLe (a b : String) : Bool := charListLe a.data b.data

/-- Insert into a sorted list, keeping the order given by le. -/
def insertLe (le : α → α → Bool) (x : α) : List α → List α
  | [] => [x]
  | y :: ys => if le x y then x :: y :: ys else y :: insertLe le x ys

/-- Insertion sort; agrees with Python sorted on a decidable total order. -/
def sortLe (le : α → α → Bool) : List α → List α
  | [] => []
  | x :: xs => insertLe le x (sortLe le xs)

/-- Python substring test: needle in hay. -/
def containsSub (hay needle : List Char) : Bool :=
  match hay with
  | [] => needle.isPrefixOf []
  | c :: t => needle.isPrefixOf (c :: t) || containsSub t needle

/-- Association-list lookup, modelling a Python dict read. -/
def alookup [DecidableEq α] : List (α × β) → α → Option β
  | [], _ => none
  | (k, v) :: t, x => if k = x then some v else alookup t x

/-- Replace the value at an existing key, keeping its position, modelling a
Python dict write to a key that is already present. -/
def assocUpd [DecidableEq α] : List (α × β) → α → β → List (α × β)
  | [], _, _ => []
  | (k, v) :: t, x, w => if k = x then (k, w) :: t else (k, v) :: assocUpd t x w

/-- Python dict write: replace in place when the key is present, otherwise
append at the end, preserving insertion order. -/
def dictInsert [DecidableEq α] (m : List (α × β)) (x : α) (w : β) : List (α × β) :=
  if (alookup m x).isSome then assocUpd m x w else m ++ [(x, w)]

/-- Split at the first occurrence of sep, returning the part before it and
the part after it. -/
def splitFirst (sep : List Char) : List Char → Option (List Char × List Char)
  | [] => if sep.isPrefixOf ([] : List Char) then some ([], []) else none
  | c :: r =>
    if sep.isPrefixOf (c :: r) then some ([], (c :: r).drop sep.length)
    else (splitFirst sep r).map fun p => (c :: p.1, p.2)

/-- Python str.split(sep, maxsplit=2) restricted to the case where it
produces exactly three parts, which needs at least two occurrences of sep;
with fewer parts the three-way tuple unpacking in the source raises. -/
def splitTwice (sep text : List Char) : Option (List Char × List Char × List Char) :=
  match splitFirst sep text with
  | none => none
  | some (a, rest) =>
    match splitFirst sep rest with
    | none => none
    | some (b, c) => some (a, b, c)

/-- Worker for splitAll, with fuel bounded by the text length. -/
def splitAllAux (sep : List Char) : Nat → List Char → List (List Char)
  | 0, text => [text]
  | fuel + 1, text =>
    match splitFirst sep text with
    | none => [text]
    | some (a, rest) => a :: splitAllAux sep fuel rest

/-- Python str.split(sep) without maxsplit, for a non-empty sep; each split
consumes at least one character, so the text length bounds the number of
splits. -/
def splitAll (sep text : List Char) : List (List Char) :=
  splitAllAux sep text.length text

/-- Result of TagData.from_text (utils.py lines 31-35). -/
structure TagData where
  key : String
  original : String
  comments : List String
deriving Repr, DecidableEq

/-- TagData.from_text (utils.py lines 37-54); hash abstracts the sha3-224
hex digest. The three-way tuple unpacking of stripped.split with two
separators assigns key := middle even when the prefix is non-empty: the
else branch restores only original, not key. -/
def TagData.from_text (hash : String → String) (inner_text : String) : TagData :=
  let stripped := strip inner_text
  match splitTwice [':', ':'] stripped.data with
  | none =>
    { key := hash stripped, original := stripped, comments := [] }
  | some (empty, middle, rest) =>
    if empty = [] then
      { key := ⟨middle⟩
        original := ⟨rest⟩
        comments := sortLe strLe ((splitAll ['/', '/'] middle).map fun l => (⟨l⟩ : String)) }
    else
      { key := ⟨middle⟩, original := stripped, comments := [] }

/-- Lazy scan for the closing marker of the pattern opening(.*?)closing:
returns the shortest inner text and the remainder after the closing marker,
failing on a newline, which the dot does not match, or at end of input. -/
def scanClosing (closing : List Char) : List Char → Option (List Char × List Char)
  | [] => if closing.isPrefixOf ([] : List Char) then some ([], []) else none
  | c :: r =>
    if closing.isPrefixOf (c :: r) then some ([], (c :: r).drop closing.length)
    else if c = '\n' then none
    else (scanClosing closing r).map fun p => (c :: p.1, p.2)

/-- Worker for findSpans: one pass of re.finditer over opening(.*?)closing,
collecting the inner_text group of each non-overlapping match while
scanning left to right; a position where no match starts advances by one
character. Fuel is the text length, enough for non-empty markers. -/
def findSpansAux (opening closing : List Char) : Nat → List Char → List (List Char)
  | 0, _ => []
  | _ + 1, [] => []
  | fuel + 1, c :: r =>
    if opening.isPrefixOf (c :: r) then
      match scanClosing closing ((c :: r).drop opening.length) with
      | some (inner, rest) => inner :: findSpansAux opening closing fuel rest
      | none => findSpansAux opening closing fuel r
    else findSpansAux opening closing fuel r

/-- All inner texts matched by the boundary regex, in order (Boundary.regex
in utils.py lines 92-96 combined with finditer and findall call sites). -/
def findSpans (opening closing text : List Char) : List (List Char) :=
  findSpansAux opening closing text.length text

/-- Worker for regexSub: re.sub with a total replacement callback receiving
the whole match and the inner_text group. -/
def regexSubAux (opening closing : List Char)
    (f : List Char → List Char → List Char) : Nat → List Char → List Char
  | 0, t => t
  | _ + 1, [] => []
  | fuel + 1, c :: r =>
    if opening.isPrefixOf (c :: r) then
      match scanClosing closing ((c :: r).drop opening.length) with
      | some (inner, rest) =>
        f (opening ++ inner ++ closing) inner ++ regexSubAux opening closing f fuel rest
      | none => c :: regexSubAux opening closing f fuel r
    else c :: regexSubAux opening closing f fuel r

/-- re.sub with a total replacement callback. -/
def regexSub (opening closing : List Char) (f : List Char → List Char → List Char)
    (text : List Char) : List Char :=
  regexSubAux opening closing f text.length text

/-- Worker for regexSubM: re.sub whose replacement callback may raise, as
the dictionary lookup in Command._get_translated does. -/
def regexSubMAux (opening closing : List Char)
    (f : List Char → List Char → Except ε (List Char)) :
    Nat → List Char → Except ε (List Char)
  | 0, t => .ok t
  | _ + 1, [] => .ok []
  | fuel + 1, c :: r =>
    if opening.isPrefixOf (c :: r) then
      match scanClosing closing ((c :: r).drop opening.length) with
      | some (inner, rest) => do
        let repl ← f (opening ++ inner ++ closing) inner
        let tail ← regexSubMAux opening closing f fuel rest
        .ok (repl ++ tail)
      | none => do
        let tail ← regexSubMAux opening closing f fuel r
        .ok (c :: tail)
    else do
      let tail ← regexSubMAux opening closing f fuel r
      .ok (c :: tail)

/-- re.sub with a callback that may raise; the first exception aborts the
whole substitution. -/
def regexSubM (opening closing : List Char)
    (f : List Char → List Char → Except ε (List Char)) (text : List Char) :
    Except ε (List Char) :=
  regexSubMAux opening closing f text.length text

/-- Paths are opaque strings, see the module comment. -/
abbrev PPath := String

/-- A configured opening/closing marker pair (utils.py lines 87-96). -/
structure Boundary where
  opening : String
  closing : String
deriving Repr, DecidableEq

/-- Translation unit (utils.py lines 115-121). -/
structure Translation where
  key : String
  original : String
  translated : String
  comments : List String
  literals : List String
deriving Repr, DecidableEq

/-- Per-template translation map: dict from key to unit. -/
abbrev Translations := List (String × Translation)

/-- Translation.from_text (utils.py lines 123-133): derive the tag data,
collect the literal spans found inside the original text (findall returns
the inner_text group), deduplicate them as a set and sort them. -/
def Translation.from_text (hash : String → String) (inner_text : String)
    (boundary : Boundary) : Translation :=
  let tagData := TagData.from_text hash inner_text
  let literals :=
    (findSpans boundary.opening.data boundary.closing.data tagData.original.data).map
      fun l => (⟨l⟩ : String)
  { key := tagData.key
    original := tagData.original
    translated := ""
    comments := tagData.comments
    literals := sortLe strLe literals.dedup }

/-- The TRANSLATABLE marker pair (constants.py line 7). -/
def translatableBoundary : Boundary := { opening := "<$", closing := "$>" }

/-- The LITERAL marker pair (constants.py line 8). -/
def literalBoundary : Boundary := { opening := "<#", closing := "#>" }

/-- The MARKED marker pair (constants.py line 9). -/
def markBoundary : Boundary := { opening := "<@", closing := "@>" }

/-- The Extracted TypedDict (type_defs.py lines 14-16): per-template unit
maps plus the reverse index from key to every template containing it. -/
structure Extracted where
  translations : List (PPath × Translations)
  paths : List (String × List PPath)
deriving Repr, DecidableEq

/-- Append a template to the reverse-index entry of a key, modelling
defaultdict(list) append. -/
def pathsAppend (m : List (String × List PPath)) (k : String) (p : PPath) :
    List (String × List PPath) :=
  match alookup m k with
  | some ps => assocUpd m k (ps ++ [p])
  | none => m ++ [(k, [p])]

/-- The per-template inner loop of Command.extract_translatable: every
matched span becomes a unit stored under its key, a later span with the
same key silently replacing the earlier one. -/
def extractTemplate (hash : String → String) (literal : Boundary)
    (spans : List (List Char)) : Translations :=
  spans.foldl
    (fun m inner =>
      let tr := Translation.from_text hash ⟨inner⟩ literal
      dictInsert m tr.key tr)
    []

/-- Command.extract_translatable (command.py lines 49-62) for a run whose
templates are given together with their contents. -/
def extract_translatable (hash : String → String) (translation literal : Boundary)
    (templates : List (PPath × String)) : Extracted :=
  templates.foldl
    (fun acc t =>
      let spans := findSpans translation.opening.data translation.closing.data t.2.data
      { translations := dictInsert acc.translations t.1 (extractTemplate hash literal spans)
        paths := spans.foldl
          (fun m inner => pathsAppend m (Translation.from_text hash ⟨inner⟩ literal).key t.1)
          acc.paths })
    { translations := [], paths := [] }

/-- Errors escaping Command.update_translations: the translation-mismatch
ValueError naming the offending key, and the KeyError of an inconsistent
reverse index. -/
inductive MergeError where
  | mismatch (key : String)
  | keyError
deriving Repr, DecidableEq

/-- The dict of per-template translation maps handled by the synchronizer. -/
abbrev NewT := List (PPath × Translations)

/-- Read new_translations[path][key]; either dict access can raise KeyError. -/
def lookupT (m : NewT) (p : PPath) (k : String) : Option Translation :=
  match alookup m p with
  | none => none
  | some tm => alookup tm k

/-- Write new_translations[path][key] := v for a path that is present. -/
def setT : NewT → PPath → String → Translation → NewT
  | [], _, _, _ => []
  | (p', tm) :: t, p, k, v =>
    if p' = p then (p', assocUpd tm k v) :: t else (p', tm) :: setT t p k v

/-- Inner loop of Command.update_translations (command.py lines 74-82): for
one key with a non-empty old translation, walk the paths of its reverse
index entry; a new unit that already carries a different non-empty
translation raises the mismatch error, otherwise the old unit is written
over the new one. -/
def applyPaths (k : String) (ot : Translation) :
    List PPath → NewT → Except MergeError NewT
  | [], acc => .ok acc
  | p :: ps, acc =>
    match lookupT acc p k with
    | none => .error .keyError
    | some nt =>
      if nt.translated ≠ "" ∧ nt.translated ≠ ot.translated then
        .error (.mismatch k)
      else applyPaths k ot ps (setT acc p k ot)

/-- Command.update_translations (command.py lines 64-82), iterating the
reverse index; keys missing from the old map or carrying an empty old
translation are skipped. -/
def update_translations (index : List (String × List PPath)) (newT : NewT)
    (old : Translations) : Except MergeError NewT :=
  match index with
  | [] => .ok newT
  | (k, ps) :: rest =>
    match alookup old k with
    | none => update_translations rest newT old
    | some ot =>
      if ot.translated = "" then update_translations rest newT old
      else
        match applyPaths k ot ps newT with
        | .error e => .error e
        | .ok newT' => update_translations rest newT' old

/-- Fold of update_translations over the persisted documents found by rglob
(command.py lines 86-88). -/
def getTranslationsAux (index : List (String × List PPath)) :
    NewT → List Translations → Except MergeError NewT
  | acc, [] => .ok acc
  | acc, old :: rest =>
    match update_translations index acc old with
    | .error e => .error e
    | .ok acc' => getTranslationsAux index acc' rest

/-- Command.get_translations (command.py lines 84-90). new_translations is
a shallow dict copy of the extracted translations: the outer dict is fresh
but the inner per-template dicts are the same objects, and
update_translations mutates only those inner dicts, so on success the
mutated extracted state and the returned map coincide; the second component
is the Command.extracted value after the call. -/
def getTranslations (extracted : Extracted) (oldMaps : List Translations) :
    Except MergeError (NewT × Extracted) :=
  match getTranslationsAux extracted.paths extracted.translations oldMaps with
  | .error e => .error e
  | .ok r => .ok (r, { extracted with translations := r })

/-- One entry of a persisted document as parsed from YAML (the value part;
the key is the mapping key). -/
structure FileEntry where
  original : String
  translated : String
  comments : List String
  literals : List String
deriving Repr, DecidableEq

/-- The persisted store: a path maps to the parsed document of the file, or
to none when the file does not exist. -/
abbrev FS := PPath → Option (List (String × FileEntry))

/-- Errors escaping the render path of the Command: FileNotFoundError from
opening a missing persisted file, the strict KeyError and the lenient
IncompleteTranslationsError naming the key and the language, the
literal-loss ValueError naming the key and the literal, the KeyError of a
span key missing from the translations dict, and the IndexError of
full_text[1] on a too-short match. -/
inductive RunError where
  | fileNotFound (path : PPath)
  | strictMissing (key : String) (language : String)
  | incomplete (key : String) (language : String)
  | literalLoss (key : String) (literal : String)
  | subKeyError (key : String)
  | indexError
deriving Repr, DecidableEq

/-- deserialize (utils.py lines 250-263): open the persisted document,
failing with FileNotFoundError when it is missing, and build one unit per
entry, the mapping key becoming the unit key, with empty defaults for
comments and literals. -/
def deserialize (fs : FS) (path : PPath) : Except RunError Translations :=
  match fs path with
  | none => .error (.fileNotFound path)
  | some doc =>
    .ok (doc.map fun e =>
      (e.1,
        { key := e.1
          original := e.2.original
          translated := e.2.translated
          comments := e.2.comments
          literals := e.2.literals }))

/-- PathData (utils.py lines 24-28). -/
structure PathData where
  path : PPath
  language_code : String
  content : String
deriving Repr, DecidableEq

/-- Language (utils.py lines 69-84); the directory fields and the path
arithmetic of get_translations_path and get_translated_path are opaque
collaborators, modelled by the two path-valued functions. -/
structure Language where
  code : String
  is_default : Bool
  construction_message : String
  get_translations_path : PPath → PPath
  get_translated_path : PPath → PPath

/-- Boundaries (utils.py lines 99-103). -/
structure Boundaries where
  translation : Boundary
  literal : Boundary
  mark : Boundary

/-- The parts of Config (utils.py lines 106-112) consumed by the claims;
formatters and the template root only feed external collaborators. -/
structure Config where
  languages : List Language
  strict : Bool
  boundaries : Boundaries

/-- Loop body of Command.get_translations_dict (command.py lines 106-122)
for one persisted entry: an empty translated text raises the strict
KeyError or the lenient IncompleteTranslationsError naming the key and the
language; otherwise, when the unit records literals, the first literal
missing from the translated text raises the literal-loss ValueError, and
when all occur the literal markers inside the translated text are
unwrapped; a unit recording no literals keeps its translated text as is. -/
def cleanTranslation (strict : Bool) (literal : Boundary) (language_code : String)
    (k : String) (t : Translation) : Except RunError String :=
  if t.translated = "" then
    .error (if strict then .strictMissing k language_code else .incomplete k language_code)
  else if t.literals.isEmpty then .ok t.translated
  else
    match t.literals.find? (fun l => ! containsSub t.translated.data l.data) with
    | some l => .error (.literalLoss k l)
    | none =>
      .ok ⟨regexSub literal.opening.data literal.closing.data
        (fun _ inner => inner) t.translated.data⟩

/-- The cleaning loop of Command.get_translations_dict over all persisted
entries, in document order; the first exception aborts. -/
def cleanTranslations (strict : Bool) (literal : Boundary) (language_code : String) :
    Translations → Except RunError (List (String × String))
  | [] => .ok []
  | (k, t) :: rest => do
    let v ← cleanTranslation strict literal language_code k t
    let vs ← cleanTranslations strict literal language_code rest
    .ok ((k, v) :: vs)

/-- Command.get_translations_dict (command.py lines 92-124): the default
language maps each extracted key to its original text; any other language
deserializes its persisted document and cleans every entry. -/
def get_translations_dict (strict : Bool) (literal : Boundary) (language : Language)
    (template : PPath) (extractedForTemplate : Translations) (fs : FS) :
    Except RunError (List (String × String)) :=
  if language.is_default then
    .ok (extractedForTemplate.map fun e => (e.1, e.2.original))
  else do
    let tm ← deserialize fs (language.get_translations_path template)
    cleanTranslations strict literal language.code tm

/-- Command._get_translated (command.py lines 147-155): a span whose second
character is not the dollar symbol is re-emitted as its inner text;
otherwise the key is re-derived from the inner text and looked up in the
translations dict, a missing key being an uncaught KeyError. -/
def get_translated (hash : String → String) (translations_dict : List (String × String))
    (full inner : List Char) : Except RunError (List Char) :=
  match full.get? 1 with
  | none => .error .indexError
  | some ch =>
    if ch ≠ '$' then .ok inner
    else
      let key := (TagData.from_text hash ⟨inner⟩).key
      match alookup translations_dict key with
      | none => .error (.subKeyError key)
      | some v => .ok v.data

/-- Command.get_translated_text (command.py lines 169-188): the lenient
IncompleteTranslationsError falls back to the construction message for the
whole template, every other error propagates, and on success each
translation span is substituted through Command._get_translated. -/
def get_translated_text (hash : String → String) (strict : Bool)
    (boundaries : Boundaries) (language : Language) (template : PPath)
    (template_text : String) (extractedForTemplate : Translations) (fs : FS) :
    Except RunError PathData :=
  match get_translations_dict strict boundaries.literal language template
      extractedForTemplate fs with
  | .error (.incomplete _ _) =>
    .ok { path := language.get_translated_path template
          language_code := language.code
          content := language.construction_message }
  | .error e => .error e
  | .ok d =>
    match regexSubM boundaries.translation.opening.data
        boundaries.translation.closing.data (get_translated hash d)
        template_text.data with
    | .error e => .error e
    | .ok out =>
      .ok { path := language.get_translated_path template
            language_code := language.code
            content := ⟨out⟩ }

/-- Template loop of Command.translate for one language. -/
def translateTemplates (hash : String → String) (strict : Bool)
    (boundaries : Boundaries) (extracted : Extracted) (fs : FS)
    (language : Language) : List (PPath × String) → Except RunError (List PathData)
  | [] => .ok []
  | (p, text) :: rest => do
    let pd ← get_translated_text hash strict boundaries language p text
      ((alookup extracted.translations p).getD []) fs
    let pds ← translateTemplates hash strict boundaries extracted fs language rest
    .ok (pd :: pds)

/-- The path_data comprehension of Command.translate (command.py lines
226-231): languages outermost, templates inner; the first exception aborts
the whole run before write_path_data writes anything, so an error here
means no output for any pair. Formatter calls are external. -/
def translate (hash : String → String) (cfg : Config) (extracted : Extracted)
    (fs : FS) (templates : List (PPath × String)) :
    List Language → Except RunError (List PathData)
  | [] => .ok []
  | lang :: rest => do
    let pds ← translateTemplates hash cfg.strict cfg.boundaries extracted fs lang templates
    let more ← translate hash cfg extracted fs templates rest
    .ok (pds ++ more)

/-! Helper lemmas about the association-list primitives. -/

/-- Rebuilding a string from its character list is the identity. -/
theorem mk_data (s : String) : (⟨s.data⟩ : String) = s := rfl

/-- Updating an existing key makes lookup return the new value. -/
theorem alookup_assocUpd_self [DecidableEq α] (m : List (α × β)) (k : α) (v w : β)
    (h : alookup m k = some w) : alookup (assocUpd m k v) k = some v := by
  induction m with
  | nil => simp [alookup] at h
  | cons e t ih =>
    obtain ⟨k', v'⟩ := e
    by_cases hk : k' = k
    · subst hk
      simp [assocUpd, alookup]
    · simp only [alookup, if_neg hk] at h
      simp [assocUpd, alookup, if_neg hk, ih h]

/-- Updating one key leaves lookups of other keys unchanged. -/
theorem alookup_assocUpd_ne [DecidableEq α] (m : List (α × β)) (k x : α) (v : β)
    (h : x ≠ k) : alookup (assocUpd m k v) x = alookup m x := by
  induction m with
  | nil => simp [assocUpd]
  | cons e t ih =>
    obtain ⟨k', v'⟩ := e
    by_cases hk : k' = k
    · subst hk
      have : k' ≠ x := fun he => h he.symm
      simp [assocUpd, alookup, if_neg this]
    · by_cases hx : k' = x
      · subst hx
        simp [assocUpd, alookup, if_neg hk]
      · simp [assocUpd, alookup, if_neg hk, if_neg hx, ih]

/-- Lookup distributes over appending association lists. -/
theorem alookup_append [DecidableEq α] (m l : List (α × β)) (x : α) :
    alookup (m ++ l) x =
      match alookup m x with
      | some v => some v
      | none => alookup l x := by
  induction m with
  | nil => simp [alookup]
  | cons e t ih =>
    obtain ⟨k', v'⟩ := e
    by_cases hx : k' = x
    · simp [alookup, if_pos hx]
    · simp [alookup, if_neg hx, ih]

/-- A dict write makes lookup of that key return the written value. -/
theorem alookup_dictInsert_self [DecidableEq α] (m : List (α × β)) (k : α) (v : β) :
    alookup (dictInsert m k v) k = some v := by
  unfold dictInsert
  cases h : alookup m k with
  | some w => simp only [h, Option.isSome_some, if_true]; exact alookup_assocUpd_self m k v w h
  | none => simp [h, alookup_append, alookup]

/-- A dict write leaves lookups of other keys unchanged. -/
theorem alookup_dictInsert_ne [DecidableEq α] (m : List (α × β)) (k x : α) (v : β)
    (h : x ≠ k) : alookup (dictInsert m k v) x = alookup m x := by
  unfold dictInsert
  split
  · exact alookup_assocUpd_ne m k x v h
  · rw [alookup_append]
    cases hm : alookup m x with
    | some w => rfl
    | none =>
      have hne : ¬ k = x := fun he => h he.symm
      simp [alookup, hne]

/-- Folding dict writes of units keyed by their own key. -/
def insertAll (m : Translations) : List Translation → Translations
  | [] => m
  | u :: us => insertAll (dictInsert m u.key u) us

/-- extractTemplate is the insertion fold of the units derived from the
spans, in match order. -/
theorem extractTemplate_eq_insertAll (hash : String → String) (literal : Boundary)
    (spans : List (List Char)) :
    extractTemplate hash literal spans =
      insertAll [] (spans.map fun i => Translation.from_text hash ⟨i⟩ literal) := by
  suffices h : ∀ (l : List (List Char)) (m : Translations),
      l.foldl (fun m inner =>
        let tr := Translation.from_text hash ⟨inner⟩ literal
        dictInsert m tr.key tr) m =
      insertAll m (l.map fun i => Translation.from_text hash ⟨i⟩ literal) by
    exact h spans []
  intro l
  induction l with
  | nil => intro m; rfl
  | cons a t ih => intro m; simp only [List.foldl_cons, List.map_cons, insertAll]; exact ih _

/-- Keys absent from the inserted units keep their previous binding. -/
theorem insertAll_lookup_of_none (us : List Translation) (k : String) :
    ∀ m, (∀ u ∈ us, u.key ≠ k) → alookup (insertAll m us) k = alookup m k := by
  induction us with
  | nil => intro m _; rfl
  | cons u t ih =>
    intro m h
    have hu : u.key ≠ k := h u (by simp)
    have ht : ∀ v ∈ t, v.key ≠ k := fun v hv => h v (by simp [hv])
    rw [insertAll, ih _ ht, alookup_dictInsert_ne _ _ _ _ (fun he => hu he.symm)]

/-- When some inserted unit carries the key, lookup returns the last such
unit: the insertion fold resolves duplicates by last write wins. -/
theorem insertAll_lookup_last (us : List Translation) (k : String) :
    ∀ m, (us.filter fun u => u.key = k) ≠ [] →
      alookup (insertAll m us) k = (us.filter fun u => u.key = k).getLast? := by
  induction us with
  | nil => intro m h; simp at h
  | cons u t ih =>
    intro m h
    by_cases hu : u.key = k
    · rw [List.filter_cons_of_pos (by simp [hu])] at h ⊢
      cases ht : t.filter fun u => u.key = k with
      | nil =>
        have hnone : ∀ v ∈ t, v.key ≠ k := by
          intro v hv
          have := List.filter_eq_nil_iff.mp ht v hv
          simpa using this
        rw [insertAll, insertAll_lookup_of_none t k _ hnone]
        subst hu
        simp [alookup_dictInsert_self]
      | cons b l =>
        rw [insertAll, ih _ (by simp [ht]), ht]
        simp [List.getLast?]
    · rw [List.filter_cons_of_neg (by simp [hu])] at h ⊢
      rw [insertAll, ih _ h]

/-! Fixtures shared by the scenario theorems. -/

/-- A concrete non-default language fr, with opaque path arithmetic made
explicit. -/
def frLang : Language :=
  { code := "fr", is_default := false, construction_message := "Under construction"
    get_translations_path := fun t => "translations/fr/" ++ t ++ ".yaml"
    get_translated_path := fun t => "translated/fr/" ++ t }

/-- A concrete default language en. -/
def enLang : Language :=
  { code := "en", is_default := true, construction_message := "__default__"
    get_translations_path := fun t => "translations/en/" ++ t ++ ".yaml"
    get_translated_path := fun t => "translated/en/" ++ t }

/-- The default marker configuration from constants.py. -/
def defaultBoundaries : Boundaries :=
  { translation := translatableBoundary, literal := literalBoundary, mark := markBoundary }

/-- Key normalization used by the end-to-end scenario: the span inner text
Hello needs no splitting, so the key is the digest of the stripped text. -/
theorem c5keyHello (hash : String → String) :
    (TagData.from_text hash "Hello").key = hash "Hello" := rfl

/-- C3: the spec says that a stripped text containing the separator twice
with a non-empty prefix is treated as plain original text under the default
rule, so its key should be the content hash of the whole stripped text; the
code instead leaves key bound to the middle segment of the split, because
the else branch of TagData.from_text restores original but not key. At the
input a::b::c the key is b, never the 56-character sha3-224 hex digest of
a::b::c, for any digest function. -/
theorem c3_incidental_separator_eval (hash : String → String) :
    TagData.from_text hash "a::b::c" =
      { key := "b", original := "a::b::c", comments := [] } := rfl

/-- Extracted state of one template t with one pending unit under key k,
as built by extraction before any language is processed. -/
def c9ext : Extracted :=
  { translations := [("t", [("k", ⟨"k", "Hello", "", [], []⟩)])]
    paths := [("k", ["t"])] }

/-- A persisted map of language A carrying a translation for key k. -/
def c9oldA : Translations := [("k", ⟨"k", "Hello", "Bonjour", [], []⟩)]

/-- The template map after language A has been merged: A's translated text
has been written into the shared inner dict. -/
def c9leaked : NewT := [("t", [("k", ⟨"k", "Hello", "Bonjour", [], []⟩)])]

/-- C9: the claim says Command.get_translations leaves Command.extracted
unchanged and that the map produced for a language B is independent of
whether another language A was processed first. Because new_translations is
a shallow dict copy whose inner per-template dicts are shared with
Command.extracted, merging language A mutates the extracted state, and a
subsequent run for a language B with no persisted maps produces A's
translated text instead of the pending empty unit. -/
theorem c9_cross_language_leak :
    getTranslations c9ext [c9oldA] = .ok (c9leaked, ⟨c9leaked, [("k", ["t"])]⟩) ∧
    getTranslations ⟨c9leaked, [("k", ["t"])]⟩ [] =
      .ok (c9leaked, ⟨c9leaked, [("k", ["t"])]⟩) ∧
    getTranslations c9ext [] = .ok (c9ext.translations, c9ext) ∧
    c9leaked ≠ c9ext.translations :=
  ⟨rfl, rfl, rfl, by decide⟩

/-- A template whose two spans derive the same explicit key k but divergent
original texts. -/
def c4template : String := "<$::k::text1$><$::k::text2$>"

/-- C4 counterexample: the two spans of c4template share the derived key
but diverge in content, and extraction neither fails nor reports: it
returns the map holding only the unit of the second span, the first being
silently overwritten, and the reverse index records the template twice. -/
theorem c4_duplicate_span_counterexample :
    (Translation.from_text (fun _ => "") "::k::text1" literalBoundary).key =
      (Translation.from_text (fun _ => "") "::k::text2" literalBoundary).key ∧
    Translation.from_text (fun _ => "") "::k::text1" literalBoundary ≠
      Translation.from_text (fun _ => "") "::k::text2" literalBoundary ∧
    extract_translatable (fun _ => "") translatableBoundary literalBoundary
        [("t", c4template)] =
      ⟨[("t", [("k", ⟨"k", "text2", "", ["k"], []⟩)])], [("k", ["t", "t"])]⟩ :=
  ⟨rfl, by decide, rfl⟩

/-- C4 amended: duplicate spans with the same derived key inside one
template collapse to one unit by last write wins: extraction performs no
divergence check and the extracted map binds the key to the unit of the
last span carrying it. -/
theorem c4_last_write_wins (hash : String → String) (literal : Boundary)
    (spans : List (List Char)) (k : String)
    (h : ((spans.map fun i => Translation.from_text hash ⟨i⟩ literal).filter
        (fun u => u.key = k)) ≠ []) :
    alookup (extractTemplate hash literal spans) k =
      ((spans.map fun i => Translation.from_text hash ⟨i⟩ literal).filter
        (fun u => u.key = k)).getLast? := by
  rw [extractTemplate_eq_insertAll]
  exact insertAll_lookup_last _ _ _ h

/-- C4 amended, witnessed at the divergent template: the extracted unit for
k is the one of the second span. -/
theorem c4_last_write_wins_witness :
    alookup (extractTemplate (fun _ => "") literalBoundary
        ["::k::text1".data, "::k::text2".data]) "k" =
      ((["::k::text1".data, "::k::text2".data].map fun i =>
          Translation.from_text (fun _ => "") ⟨i⟩ literalBoundary).filter
        (fun u => u.key = "k")).getLast? :=
  c4_last_write_wins (fun _ => "") literalBoundary
    ["::k::text1".data, "::k::text2".data] "k" (by decide)

/-- C7 counterexample: a unit recording no literals renders successfully
but its literal markers are not unwrapped, although every recorded literal
trivially occurs in the translated text; the claim's success clause
promises unwrapping unconditionally. -/
theorem c7_no_unwrap_counterexample :
    cleanTranslation false literalBoundary "fr" "k"
        ⟨"k", "orig", "a <#b#> c", [], []⟩ = .ok "a <#b#> c" ∧
    regexSub literalBoundary.opening.data literalBoundary.closing.data
        (fun _ inner => inner) "a <#b#> c".data = "a b c".data ∧
    ("a <#b#> c" : String) ≠ "a b c" :=
  ⟨rfl, by decide, by decide⟩

/-- C7 amended: for a unit with non-empty translated text, cleaning fails
with a literal-loss error naming the map key and the missing literal
exactly when some recorded literal is absent from the translated text; when
every recorded literal occurs, the unit renders successfully, literal
markers being unwrapped when the unit records at least one literal, while a
unit recording none keeps its translated text verbatim. -/
theorem c7_literal_preservation (strict : Bool) (literal : Boundary)
    (code k : String) (t : Translation) (hne : t.translated ≠ "") :
    ((∃ l, cleanTranslation strict literal code k t = .error (.literalLoss k l) ∧
        l ∈ t.literals ∧ containsSub t.translated.data l.data = false) ↔
      (∃ l ∈ t.literals, containsSub t.translated.data l.data = false)) ∧
    ((∀ l ∈ t.literals, containsSub t.translated.data l.data = true) →
      cleanTranslation strict literal code k t =
        .ok (if t.literals.isEmpty then t.translated
          else ⟨regexSub literal.opening.data literal.closing.data
            (fun _ inner => inner) t.translated.data⟩)) := by
  unfold cleanTranslation
  rw [if_neg hne]
  by_cases hemp : t.literals.isEmpty
  · rw [if_pos hemp]
    have hnil : t.literals = [] := List.isEmpty_iff.mp hemp
    constructor
    · constructor
      · rintro ⟨l, hl, _⟩; exact absurd hl (by simp)
      · rintro ⟨l, hl, _⟩; rw [hnil] at hl; exact absurd hl (by simp)
    · intro _; rw [if_pos hemp]
  · rw [if_neg hemp]
    cases hfind : t.literals.find? (fun l => ! containsSub t.translated.data l.data) with
    | some l =>
      have hmem : l ∈ t.literals := List.mem_of_find?_eq_some hfind
      have habs : containsSub t.translated.data l.data = false := by
        have := List.find?_some hfind
        simpa using this
      constructor
      · constructor
        · intro _; exact ⟨l, hmem, habs⟩
        · intro _; exact ⟨l, rfl, hmem, habs⟩
      · intro hall
        exact absurd (hall l hmem) (by simp [habs])
    | none =>
      have hall : ∀ l ∈ t.literals, containsSub t.translated.data l.data = true := by
        intro l hl
        have := List.find?_eq_none.mp hfind l hl
        simpa using this
      constructor
      · constructor
        · rintro ⟨l, hl, _⟩; exact absurd hl (by simp)
        · rintro ⟨l, hl, habs⟩; exact absurd (hall l hl) (by simp [habs])
      · intro _; rw [if_neg hemp]

/-- C7 amended, witnessed on a unit whose recorded literal occurs: the unit
renders successfully with the literal markers unwrapped. -/
theorem c7_literal_preservation_witness :
    cleanTranslation false literalBoundary "fr" "k"
        ⟨"k", "o", "Bonjour <#name#>", [], ["name"]⟩ =
      .ok (if (["name"] : List String).isEmpty then "Bonjour <#name#>"
        else ⟨regexSub literalBoundary.opening.data literalBoundary.closing.data
          (fun _ inner => inner) ("Bonjour <#name#>" : String).data⟩) :=
  (c7_literal_preservation false literalBoundary "fr" "k"
    ⟨"k", "o", "Bonjour <#name#>", [], ["name"]⟩ (by decide)).2 (by decide)

/-- Classifier for the two missing-translation errors, which name a key and
a language. -/
def isMissingTranslationError : Except RunError PathData → Bool
  | .error (.strictMissing _ _) => true
  | .error (.incomplete _ _) => true
  | _ => false

/-- C5 counterexample: with the persisted file for fr deleted, re-rendering
in strict mode fails with the FileNotFoundError of deserialize opening the
missing path, not with a missing-translation error naming the key and fr. -/
theorem c5_deleted_file_counterexample :
    get_translated_text (fun s => "#" ++ s) true defaultBoundaries frLang "tmpl"
        "<$Hello$>" [("#Hello", ⟨"#Hello", "Hello", "", [], []⟩)] (fun _ => none) =
      .error (.fileNotFound "translations/fr/tmpl.yaml") ∧
    isMissingTranslationError
        (.error (.fileNotFound "translations/fr/tmpl.yaml")) = false := by
  constructor
  · simp [get_translated_text, get_translations_dict, frLang, deserialize,
      defaultBoundaries, bind, Except.bind]
  · rfl

/-- C5 amended: for the template with the single span of Hello under the
default markers, the extracted map holds one pending unit under the hashed
key; default-language render outputs Hello; render for fr with the
persisted translation Bonjour outputs Bonjour; and after deleting the
persisted file, re-rendering for fr in strict mode fails with a
file-not-found error for the persisted path (the missing-translation error
naming key and language arises only when the file exists but carries an
empty translated text). -/
theorem c5_end_to_end_amended (hash : String → String) :
    (alookup (extract_translatable hash translatableBoundary literalBoundary
        [("tmpl", "<$Hello$>")]).translations "tmpl").getD [] =
      [(hash "Hello", ⟨hash "Hello", "Hello", "", [], []⟩)] ∧
    get_translated_text hash true defaultBoundaries enLang "tmpl" "<$Hello$>"
        [(hash "Hello", ⟨hash "Hello", "Hello", "", [], []⟩)] (fun _ => none) =
      .ok ⟨"translated/en/tmpl", "en", "Hello"⟩ ∧
    get_translated_text hash true defaultBoundaries frLang "tmpl" "<$Hello$>"
        [(hash "Hello", ⟨hash "Hello", "Hello", "", [], []⟩)]
        (fun p => if p = "translations/fr/tmpl.yaml"
          then some [(hash "Hello", ⟨"Hello", "Bonjour", [], []⟩)] else none) =
      .ok ⟨"translated/fr/tmpl", "fr", "Bonjour"⟩ ∧
    get_translated_text hash true defaultBoundaries frLang "tmpl" "<$Hello$>"
        [(hash "Hello", ⟨hash "Hello", "Hello", "", [], []⟩)] (fun _ => none) =
      .error (.fileNotFound (frLang.get_translations_path "tmpl")) := by
  refine ⟨rfl, ?_, ?_, ?_⟩
  · simp [get_translated_text, get_translations_dict, enLang, regexSubM, regexSubMAux,
      scanClosing, get_translated, c5keyHello, alookup, defaultBoundaries,
      translatableBoundary, mk_data, bind, Except.bind, pure, Except.pure]
  · simp [get_translated_text, get_translations_dict, frLang, deserialize,
      cleanTranslations, cleanTranslation, regexSubM, regexSubMAux,
      scanClosing, get_translated, c5keyHello, alookup, defaultBoundaries,
      translatableBoundary, mk_data, bind, Except.bind, pure, Except.pure]
  · simp [get_translated_text, get_translations_dict, frLang, deserialize,
      defaultBoundaries, bind, Except.bind]

/-! Helper lemmas about the cleaning loop and the run loop. -/

/-- An entry with empty translated text always raises. -/
theorem cleanTranslation_empty (strict : Bool) (lit : Boundary) (code k : String)
    (u : Translation) (h : u.translated = "") :
    cleanTranslation strict lit code k u =
      .error (if strict then .strictMissing k code else .incomplete k code) := by
  unfold cleanTranslation
  rw [if_pos h]

/-- An entry with non-empty translated text whose recorded literals all
occur cleans successfully. -/
theorem cleanTranslation_ok_of_all (strict : Bool) (lit : Boundary) (code k : String)
    (u : Translation) (hne : u.translated ≠ "")
    (hall : ∀ l ∈ u.literals, containsSub u.translated.data l.data = true) :
    ∃ v, cleanTranslation strict lit code k u = .ok v := by
  unfold cleanTranslation
  rw [if_neg hne]
  by_cases hemp : u.literals.isEmpty
  · exact ⟨u.translated, by rw [if_pos hemp]⟩
  · rw [if_neg hemp]
    have hnone : u.literals.find? (fun l => ! containsSub u.translated.data l.data) = none := by
      apply List.find?_eq_none.mpr
      intro l hl
      simp [hall l hl]
    rw [hnone]
    exact ⟨_, rfl⟩

/-- Every entry of a successfully cleaned document cleaned successfully. -/
theorem cleanTranslations_ok_mem (strict : Bool) (lit : Boundary) (code : String) :
    ∀ (tm : Translations) (d : List (String × String)) (k : String) (u : Translation),
      cleanTranslations strict lit code tm = .ok d → (k, u) ∈ tm →
      ∃ v, cleanTranslation strict lit code k u = .ok v := by
  intro tm
  induction tm with
  | nil =>
    intro d k u _ hmem
    simp at hmem
  | cons e t ih =>
    intro d k u hok hmem
    obtain ⟨k', u'⟩ := e
    cases hcu : cleanTranslation strict lit code k' u' with
    | error err =>
      rw [cleanTranslations, hcu] at hok
      simp [bind, Except.bind] at hok
    | ok v =>
      rw [cleanTranslations, hcu] at hok
      cases hct : cleanTranslations strict lit code t with
      | error err =>
        rw [hct] at hok
        simp [bind, Except.bind] at hok
      | ok vs =>
        rcases List.mem_cons.mp hmem with hhead | htail
        · injection hhead with hk hu
          subst hk
          subst hu
          exact ⟨v, hcu⟩
        · exact ih vs k u hct htail

/-- In lenient mode, a document containing an empty translated text whose
non-empty entries all pass the literal check raises the lenient
IncompleteTranslationsError. -/
theorem cleanTranslations_incomplete (lit : Boundary) (code : String) :
    ∀ tm : Translations,
      (∀ e ∈ tm, (e : String × Translation).2.translated ≠ "" →
        ∀ l ∈ e.2.literals, containsSub e.2.translated.data l.data = true) →
      (∃ e ∈ tm, (e : String × Translation).2.translated = "") →
      ∃ k', cleanTranslations false lit code tm = .error (.incomplete k' code) := by
  intro tm
  induction tm with
  | nil =>
    intro _ hex
    simp at hex
  | cons e t ih =>
    intro hall hex
    obtain ⟨k', u'⟩ := e
    by_cases hu : u'.translated = ""
    · refine ⟨k', ?_⟩
      rw [cleanTranslations, cleanTranslation_empty false lit code k' u' hu]
      simp [bind, Except.bind]
    · have hlit : ∀ l ∈ u'.literals, containsSub u'.translated.data l.data = true :=
        hall (k', u') (by simp) hu
      obtain ⟨v, hv⟩ := cleanTranslation_ok_of_all false lit code k' u' hu hlit
      obtain ⟨e₀, he₀, hemp⟩ := hex
      have he₀t : e₀ ∈ t := by
        rcases List.mem_cons.mp he₀ with hh | ht
        · rw [hh] at hemp
          exact absurd hemp hu
        · exact ht
      obtain ⟨k'', hk''⟩ := ih (fun x hx => hall x (by simp [hx])) ⟨e₀, he₀t, hemp⟩
      refine ⟨k'', ?_⟩
      rw [cleanTranslations, hv, hk'']
      simp [bind, Except.bind]

/-- The deserialized form of a parsed persisted document. -/
def deserializedMap (tm : List (String × FileEntry)) : Translations :=
  tm.map fun e =>
    (e.1,
      { key := e.1
        original := e.2.original
        translated := e.2.translated
        comments := e.2.comments
        literals := e.2.literals })

/-- Deserialization of a present file yields the deserialized map. -/
theorem deserialize_some (fs : FS) (p : PPath) (tm : List (String × FileEntry))
    (hfs : fs p = some tm) : deserialize fs p = .ok (deserializedMap tm) := by
  simp [deserialize, hfs, deserializedMap]

/-- C6: in lenient mode, when the persisted map of a non-default language
holds some key with empty translated text, whatever output
Command.get_translated_text produces for the pair is exactly the language's
construction message, and when additionally every non-empty entry passes
its literal check that output is in fact produced: no partial substitution
of the translated keys is ever emitted. -/
theorem c6_lenient_whole_template (hash : String → String) (boundaries : Boundaries)
    (lang : Language) (template : PPath) (template_text : String)
    (extractedFor : Translations) (fs : FS) (tm : List (String × FileEntry))
    (hdef : lang.is_default = false)
    (hfs : fs (lang.get_translations_path template) = some tm)
    (hempty : ∃ e ∈ tm, (e : String × FileEntry).2.translated = "") :
    (∀ pd, get_translated_text hash false boundaries lang template template_text
        extractedFor fs = .ok pd → pd.content = lang.construction_message) ∧
    ((∀ e ∈ tm, (e : String × FileEntry).2.translated ≠ "" →
        ∀ l ∈ e.2.literals, containsSub e.2.translated.data l.data = true) →
      get_translated_text hash false boundaries lang template template_text
          extractedFor fs =
        .ok ⟨lang.get_translated_path template, lang.code, lang.construction_message⟩) := by
  have hdeser : deserialize fs (lang.get_translations_path template) =
      .ok (deserializedMap tm) := deserialize_some _ _ _ hfs
  obtain ⟨e₀, he₀, hemp₀⟩ := hempty
  have hmem₀ : (e₀.1, (⟨e₀.1, e₀.2.original, e₀.2.translated, e₀.2.comments,
      e₀.2.literals⟩ : Translation)) ∈ deserializedMap tm := by
    exact List.mem_map.mpr ⟨e₀, he₀, rfl⟩
  constructor
  · intro pd hok
    cases hclean : cleanTranslations false boundaries.literal lang.code
        (deserializedMap tm) with
    | ok d =>
      exfalso
      obtain ⟨v, hv⟩ := cleanTranslations_ok_mem false boundaries.literal lang.code
        (deserializedMap tm) d _ _ hclean hmem₀
      rw [cleanTranslation_empty false boundaries.literal lang.code _ _ hemp₀] at hv
      simp at hv
    | error err =>
      have hgd : get_translations_dict false boundaries.literal lang template
          extractedFor fs = .error err := by
        simp [get_translations_dict, hdef, hdeser, bind, Except.bind, hclean]
      rw [get_translated_text, hgd] at hok
      cases err with
      | incomplete k' c' =>
        simp at hok
        rw [← hok]
      | fileNotFound p' => simp at hok
      | strictMissing k' c' => simp at hok
      | literalLoss k' l' => simp at hok
      | subKeyError k' => simp at hok
      | indexError => simp at hok
  · intro hall
    have hall' : ∀ e ∈ deserializedMap tm,
        (e : String × Translation).2.translated ≠ "" →
        ∀ l ∈ e.2.literals, containsSub e.2.translated.data l.data = true := by
      intro e he hne l hl
      obtain ⟨e₁, he₁, rfl⟩ := List.mem_map.mp he
      exact hall e₁ he₁ hne l hl
    obtain ⟨k', hclean⟩ := cleanTranslations_incomplete boundaries.literal lang.code
      (deserializedMap tm) hall'
      ⟨(e₀.1, ⟨e₀.1, e₀.2.original, e₀.2.translated, e₀.2.comments, e₀.2.literals⟩),
        hmem₀, hemp₀⟩
    have hgd : get_translations_dict false boundaries.literal lang template
        extractedFor fs = .error (.incomplete k' lang.code) := by
      simp [get_translations_dict, hdef, hdeser, bind, Except.bind, hclean]
    rw [get_translated_text, hgd]

/-- Store for the C6 witness: one persisted entry with empty translated
text. -/
def fsC6 : FS := fun p =>
  if p = "translations/fr/t.yaml" then some [("k", ⟨"o", "", [], []⟩)] else none

/-- C6, witnessed on a concrete lenient pair with one pending key: the
output is exactly the construction message. -/
theorem c6_lenient_whole_template_witness :
    (∀ pd, get_translated_text (fun _ => "") false defaultBoundaries frLang "t" "x"
        [] fsC6 = .ok pd → pd.content = frLang.construction_message) ∧
    ((∀ e ∈ [(("k" : String), (⟨"o", "", [], []⟩ : FileEntry))],
        (e : String × FileEntry).2.translated ≠ "" →
        ∀ l ∈ e.2.literals, containsSub e.2.translated.data l.data = true) →
      get_translated_text (fun _ => "") false defaultBoundaries frLang "t" "x" [] fsC6 =
        .ok ⟨frLang.get_translated_path "t", frLang.code, frLang.construction_message⟩) :=
  c6_lenient_whole_template (fun _ => "") defaultBoundaries frLang "t" "x" [] fsC6
    [("k", ⟨"o", "", [], []⟩)] rfl rfl ⟨("k", ⟨"o", "", [], []⟩), by simp, rfl⟩

/-- Every template of a successful per-language run rendered successfully. -/
theorem translateTemplates_ok_mem (hash : String → String) (strict : Bool)
    (bnd : Boundaries) (ext : Extracted) (fs : FS) (lang : Language) :
    ∀ (tmpls : List (PPath × String)) (out : List PathData) (p : PPath) (text : String),
      translateTemplates hash strict bnd ext fs lang tmpls = .ok out →
      (p, text) ∈ tmpls →
      ∃ pd, get_translated_text hash strict bnd lang p text
        ((alookup ext.translations p).getD []) fs = .ok pd := by
  intro tmpls
  induction tmpls with
  | nil =>
    intro out p text _ hmem
    simp at hmem
  | cons e t ih =>
    intro out p text hok hmem
    obtain ⟨p', text'⟩ := e
    cases hgt : get_translated_text hash strict bnd lang p' text'
        ((alookup ext.translations p').getD []) fs with
    | error err =>
      rw [translateTemplates, hgt] at hok
      simp [bind, Except.bind] at hok
    | ok pd =>
      rw [translateTemplates, hgt] at hok
      cases hrest : translateTemplates hash strict bnd ext fs lang t with
      | error err =>
        rw [hrest] at hok
        simp [bind, Except.bind] at hok
      | ok pds =>
        rcases List.mem_cons.mp hmem with hhead | htail
        · obtain ⟨hp, htext⟩ := Prod.mk.injEq .. ▸ hhead
          exact ⟨pd, by rw [← hp, ← htext] at hgt; exact hgt⟩
        · exact ih pds p text hrest htail

/-- Every pair of a successful translate run rendered successfully. -/
theorem translate_ok_mem (hash : String → String) (cfg : Config) (ext : Extracted)
    (fs : FS) (tmpls : List (PPath × String)) :
    ∀ (langs : List Language) (out : List PathData) (lang : Language)
      (p : PPath) (text : String),
      translate hash cfg ext fs tmpls langs = .ok out →
      lang ∈ langs → (p, text) ∈ tmpls →
      ∃ pd, get_translated_text hash cfg.strict cfg.boundaries lang p text
        ((alookup ext.translations p).getD []) fs = .ok pd := by
  intro langs
  induction langs with
  | nil =>
    intro out lang p text _ hmem _
    simp at hmem
  | cons l t ih =>
    intro out lang p text hok hmem htm
    cases hlr : translateTemplates hash cfg.strict cfg.boundaries ext fs l tmpls with
    | error err =>
      rw [translate, hlr] at hok
      simp [bind, Except.bind] at hok
    | ok pds =>
      rw [translate, hlr] at hok
      cases hrest : translate hash cfg ext fs tmpls t with
      | error err =>
        rw [hrest] at hok
        simp [bind, Except.bind] at hok
      | ok more =>
        rcases List.mem_cons.mp hmem with hhead | htail
        · subst hhead
          exact translateTemplates_ok_mem hash cfg.strict cfg.boundaries ext fs lang
            tmpls pds p text hlr htm
        · exact ih more lang p text hrest htail htm

/-- C8 amended: a literal-loss error in any (template, language) pair of
the run, lenient or not, aborts the whole Command.translate comprehension:
no output list is produced for any pair. -/
theorem c8_literal_loss_aborts (hash : String → String) (cfg : Config)
    (ext : Extracted) (fs : FS) (tmpls : List (PPath × String)) (lang : Language)
    (p : PPath) (text : String) (k l : String)
    (hlang : lang ∈ cfg.languages) (htm : (p, text) ∈ tmpls)
    (herr : get_translated_text hash cfg.strict cfg.boundaries lang p text
        ((alookup ext.translations p).getD []) fs = .error (.literalLoss k l)) :
    ¬ ∃ out, translate hash cfg ext fs tmpls cfg.languages = .ok out := by
  rintro ⟨out, hok⟩
  obtain ⟨pd, hpd⟩ := translate_ok_mem hash cfg ext fs tmpls cfg.languages out lang
    p text hok hlang htm
  rw [herr] at hpd
  exact absurd hpd (by simp)

/-- Templates for the C8 scenario: one healthy pair and one pair whose
persisted unit loses a literal. -/
def tmplsC8 : List (PPath × String) := [("t1", "<$::a::Hello$>"), ("t2", "<$::b::World$>")]

/-- Persisted store for the C8 scenario. -/
def fsC8 : FS := fun p =>
  if p = "translations/fr/t1.yaml" then some [("a", ⟨"Hello", "Bonjour", [], []⟩)]
  else if p = "translations/fr/t2.yaml" then some [("b", ⟨"World", "Monde", [], ["XYZ"]⟩)]
  else none

/-- Lenient configuration with the single language fr. -/
def cfgC8 : Config :=
  { languages := [frLang], strict := false, boundaries := defaultBoundaries }

/-- Extraction output for the C8 templates. -/
def extC8 : Extracted :=
  extract_translatable (fun _ => "") translatableBoundary literalBoundary tmplsC8

/-- C8 counterexample: in lenient mode the pair (t1, fr) renders fine on
its own, yet the literal loss in (t2, fr) makes the whole run fail, so no
output is produced even for the healthy pair; the claim promised output for
every pair that does not itself fail. -/
theorem c8_literal_loss_counterexample :
    get_translated_text (fun _ => "") false defaultBoundaries frLang "t1"
        "<$::a::Hello$>" ((alookup extC8.translations "t1").getD []) fsC8 =
      .ok ⟨"translated/fr/t1", "fr", "Bonjour"⟩ ∧
    translate (fun _ => "") cfgC8 extC8 fsC8 tmplsC8 cfgC8.languages =
      .error (.literalLoss "b" "XYZ") :=
  ⟨rfl, rfl⟩

/-- C8 amended, witnessed on the concrete scenario: the run produces no
output at all. -/
theorem c8_literal_loss_aborts_witness :
    ¬ ∃ out, translate (fun _ => "") cfgC8 extC8 fsC8 tmplsC8 cfgC8.languages = .ok out :=
  c8_literal_loss_aborts (fun _ => "") cfgC8 extC8 fsC8 tmplsC8 frLang "t2"
    "<$::b::World$>" "b" "XYZ" (by simp [cfgC8]) (by simp [tmplsC8]) rfl

/-! Helper lemmas about the synchronizer state. -/

/-- The outer dict after a write: the template's inner dict gets the key
updated, other templates are untouched. -/
theorem alookup_setT (m : NewT) (p : PPath) (k : String) (v : Translation) :
    alookup (setT m p k v) p = (alookup m p).map fun tm => assocUpd tm k v := by
  induction m with
  | nil => rfl
  | cons e t ih =>
    obtain ⟨q, tm⟩ := e
    by_cases hq : q = p
    · subst hq
      simp [setT, alookup]
    · simp [setT, alookup, hq, ih]

/-- A write at one template leaves the other templates' dicts unchanged. -/
theorem alookup_setT_ne (m : NewT) (p : PPath) (k : String) (v : Translation)
    (p' : PPath) (h : p' ≠ p) : alookup (setT m p k v) p' = alookup m p' := by
  induction m with
  | nil => rfl
  | cons e t ih =>
    obtain ⟨q, tm⟩ := e
    by_cases hq : q = p
    · subst hq
      have : ¬ q = p' := fun he => h he.symm
      simp [setT, alookup, this]
    · by_cases hq' : q = p'
      · simp [setT, alookup, hq, hq', h]
      · simp [setT, alookup, hq, hq', ih]

/-- Writing a present entry makes its lookup return the written value. -/
theorem lookupT_setT_self (m : NewT) (p : PPath) (k : String) (v w : Translation)
    (h : lookupT m p k = some w) : lookupT (setT m p k v) p k = some v := by
  unfold lookupT at h ⊢
  cases halo : alookup m p with
  | none => rw [halo] at h; exact absurd h (by simp)
  | some tm =>
    rw [halo] at h
    rw [alookup_setT, halo]
    exact alookup_assocUpd_self tm k v w h

/-- A write at one (template, key) slot leaves every other slot unchanged. -/
theorem lookupT_setT_ne (m : NewT) (p : PPath) (k : String) (v : Translation)
    (p' : PPath) (k' : String) (h : p' ≠ p ∨ k' ≠ k) :
    lookupT (setT m p k v) p' k' = lookupT m p' k' := by
  unfold lookupT
  rcases h with hp | hk
  · rw [alookup_setT_ne m p k v p' hp]
  · by_cases hp : p' = p
    · subst hp
      rw [alookup_setT]
      cases halo : alookup m p' with
      | none => rfl
      | some tm => exact alookup_assocUpd_ne tm k k' v hk
    · rw [alookup_setT_ne m p k v p' hp]

/-- Writes never erase entries. -/
theorem lookupT_setT_isSome (m : NewT) (p : PPath) (k : String) (v : Translation)
    (p' : PPath) (k' : String) (h : (lookupT m p' k').isSome) :
    (lookupT (setT m p k v) p' k').isSome := by
  by_cases hpk : p' = p ∧ k' = k
  · obtain ⟨hp, hk⟩ := hpk
    subst hp
    subst hk
    obtain ⟨w, hw⟩ := Option.isSome_iff_exists.mp h
    rw [lookupT_setT_self m p' k' v w hw]
    rfl
  · rw [lookupT_setT_ne m p k v p' k' (by tauto)]
    exact h

/-- The path loop leaves every other key's slots unchanged. -/
theorem applyPaths_ok_preserve_ne (k : String) (ot : Translation) (k' : String)
    (hk : k' ≠ k) :
    ∀ (ps : List PPath) (acc acc' : NewT),
      applyPaths k ot ps acc = .ok acc' →
      ∀ p', lookupT acc' p' k' = lookupT acc p' k' := by
  intro ps
  induction ps with
  | nil =>
    intro acc acc' hok p'
    cases hok
    rfl
  | cons p rest ih =>
    intro acc acc' hok p'
    rw [applyPaths] at hok
    cases hread : lookupT acc p k with
    | none => rw [hread] at hok; exact absurd hok (by simp)
    | some nt =>
      rw [hread] at hok
      simp only [] at hok
      by_cases hcond : nt.translated ≠ "" ∧ nt.translated ≠ ot.translated
      · rw [if_pos hcond] at hok; exact absurd hok (by simp)
      · rw [if_neg hcond] at hok
        rw [ih _ _ hok p', lookupT_setT_ne acc p k ot p' k' (Or.inr hk)]

/-- The path loop leaves slots of paths outside it unchanged. -/
theorem applyPaths_ok_preserve_notmem (k : String) (ot : Translation) (t : PPath) :
    ∀ (ps : List PPath) (acc acc' : NewT),
      t ∉ ps → applyPaths k ot ps acc = .ok acc' →
      lookupT acc' t k = lookupT acc t k := by
  intro ps
  induction ps with
  | nil =>
    intro acc acc' _ hok
    cases hok
    rfl
  | cons p rest ih =>
    intro acc acc' hmem hok
    have hpt : t ≠ p := fun he => hmem (he ▸ List.mem_cons_self p rest)
    have htr : t ∉ rest := fun ht => hmem (List.mem_cons_of_mem p ht)
    rw [applyPaths] at hok
    cases hread : lookupT acc p k with
    | none => rw [hread] at hok; exact absurd hok (by simp)
    | some nt =>
      rw [hread] at hok
      simp only [] at hok
      by_cases hcond : nt.translated ≠ "" ∧ nt.translated ≠ ot.translated
      · rw [if_pos hcond] at hok; exact absurd hok (by simp)
      · rw [if_neg hcond] at hok
        rw [ih _ _ htr hok, lookupT_setT_ne acc p k ot t k (Or.inl hpt)]

/-- After a successful path loop, every listed path holds the old unit. -/
theorem applyPaths_ok_mem (k : String) (ot : Translation) (t : PPath) :
    ∀ (ps : List PPath) (acc acc' : NewT),
      t ∈ ps → applyPaths k ot ps acc = .ok acc' →
      lookupT acc' t k = some ot := by
  intro ps
  induction ps with
  | nil =>
    intro acc acc' hmem _
    simp at hmem
  | cons p rest ih =>
    intro acc acc' hmem hok
    rw [applyPaths] at hok
    cases hread : lookupT acc p k with
    | none => rw [hread] at hok; exact absurd hok (by simp)
    | some nt =>
      rw [hread] at hok
      simp only [] at hok
      by_cases hcond : nt.translated ≠ "" ∧ nt.translated ≠ ot.translated
      · rw [if_pos hcond] at hok; exact absurd hok (by simp)
      · rw [if_neg hcond] at hok
        by_cases htr : t ∈ rest
        · exact ih _ _ htr hok
        · have hpt : t = p := by
            rcases List.mem_cons.mp hmem with h | h
            · exact h
            · exact absurd h htr
          subst hpt
          rw [applyPaths_ok_preserve_notmem k ot t rest _ _ htr hok]
          exact lookupT_setT_self acc t k ot nt hread

/-- Keys outside the processed index keep their slots unchanged. -/
theorem update_ok_preserve (old : Translations) (k : String) :
    ∀ (index : List (String × List PPath)) (acc res : NewT),
      k ∉ index.map Prod.fst →
      update_translations index acc old = .ok res →
      ∀ t, lookupT res t k = lookupT acc t k := by
  intro index
  induction index with
  | nil =>
    intro acc res _ hok t
    cases hok
    rfl
  | cons e rest ih =>
    intro acc res hmem hok t
    obtain ⟨k₀, ps₀⟩ := e
    have hk₀ : k₀ ≠ k := by
      intro he
      exact hmem (by simp [he])
    have hmem' : k ∉ rest.map Prod.fst := fun h => hmem (by simp [h])
    rw [update_translations] at hok
    cases hold : alookup old k₀ with
    | none =>
      rw [hold] at hok
      exact ih _ _ hmem' hok t
    | some ot =>
      rw [hold] at hok
      simp only [] at hok
      by_cases hemp : ot.translated = ""
      · rw [if_pos hemp] at hok
        exact ih _ _ hmem' hok t
      · rw [if_neg hemp] at hok
        cases hap : applyPaths k₀ ot ps₀ acc with
        | error e' => rw [hap] at hok; exact absurd hok (by simp)
        | ok acc' =>
          rw [hap] at hok
          rw [ih _ _ hmem' hok t]
          exact applyPaths_ok_preserve_ne k₀ ot k (fun he => hk₀ he.symm) ps₀ acc acc' hap t

/-- C1: merge preserves work. If the reverse index lists template t for key
k, the old persisted map carries a non-empty translated text X for k while
the fresh unit for (t, k) is untranslated, then whenever
Command.update_translations returns a merged map it binds (t, k) to a unit
whose translated text is X. -/
theorem c1_merge_preserves_work (index : List (String × List PPath)) (newT : NewT)
    (old : Translations) (k : String) (ps : List PPath) (t : PPath)
    (nu ot : Translation) (X : String) (res : NewT)
    (hnodup : (index.map Prod.fst).Nodup)
    (hidx : (k, ps) ∈ index) (hpath : t ∈ ps)
    (hold : alookup old k = some ot) (hX : ot.translated = X) (hXne : X ≠ "")
    (hnew : lookupT newT t k = some nu) (hempty : nu.translated = "")
    (hok : update_translations index newT old = .ok res) :
    ∃ u, lookupT res t k = some u ∧ u.translated = X := by
  induction index generalizing newT with
  | nil => simp at hidx
  | cons e rest ih =>
    obtain ⟨k₀, ps₀⟩ := e
    rw [update_translations] at hok
    by_cases hk : k₀ = k
    · subst hk
      have hknotin : k₀ ∉ rest.map Prod.fst := by
        simpa using (List.nodup_cons.mp hnodup).1
      have hps : ps = ps₀ := by
        rcases List.mem_cons.mp hidx with hh | ht
        · exact congrArg Prod.snd hh
        · exact absurd (List.mem_map.mpr ⟨(k₀, ps), ht, rfl⟩) hknotin
      subst hps
      rw [hold] at hok
      simp only [] at hok
      rw [if_neg (show ¬ ot.translated = "" by rw [hX]; exact hXne)] at hok
      cases hap : applyPaths k₀ ot ps newT with
      | error e' => rw [hap] at hok; exact absurd hok (by simp)
      | ok newT' =>
        rw [hap] at hok
        refine ⟨ot, ?_, hX⟩
        rw [update_ok_preserve old k₀ rest newT' res hknotin hok t]
        exact applyPaths_ok_mem k₀ ot t ps newT newT' hpath hap
    · have hidx' : (k, ps) ∈ rest := by
        rcases List.mem_cons.mp hidx with hh | ht
        · injection hh with h1 _
          exact absurd h1.symm hk
        · exact ht
      have hnodup' : (rest.map Prod.fst).Nodup := (List.nodup_cons.mp hnodup).2
      cases hold₀ : alookup old k₀ with
      | none =>
        rw [hold₀] at hok
        exact ih newT hnodup' hidx' hnew hok
      | some ot₀ =>
        rw [hold₀] at hok
        simp only [] at hok
        by_cases hemp : ot₀.translated = ""
        · rw [if_pos hemp] at hok
          exact ih newT hnodup' hidx' hnew hok
        · rw [if_neg hemp] at hok
          cases hap : applyPaths k₀ ot₀ ps₀ newT with
          | error e' => rw [hap] at hok; exact absurd hok (by simp)
          | ok newT' =>
            rw [hap] at hok
            have hnew' : lookupT newT' t k = some nu := by
              rw [applyPaths_ok_preserve_ne k₀ ot₀ k (fun he => hk he.symm) ps₀ newT
                newT' hap t]
              exact hnew
            exact ih newT' hnodup' hidx' hnew' hok

/-- C1, witnessed: one template, one key, old translation X carried over. -/
theorem c1_merge_preserves_work_witness :
    ∃ u, lookupT [("t", [("k", (⟨"k", "hi", "X", [], []⟩ : Translation))])] "t" "k" =
        some u ∧ u.translated = "X" :=
  c1_merge_preserves_work [("k", ["t"])] [("t", [("k", ⟨"k", "hi", "", [], []⟩)])]
    [("k", ⟨"k", "hi", "X", [], []⟩)] "k" ["t"] "t"
    ⟨"k", "hi", "", [], []⟩ ⟨"k", "hi", "X", [], []⟩ "X"
    [("t", [("k", ⟨"k", "hi", "X", [], []⟩)])]
    (by decide) (by decide) (by decide) (by decide) rfl (by decide) rfl rfl rfl

/-- A key on which the old map and some fresh unit disagree with two
non-empty translated texts. -/
def ConflictAt (index : List (String × List PPath)) (newT : NewT)
    (old : Translations) (k : String) : Prop :=
  ∃ ps p ot nu, (k, ps) ∈ index ∧ p ∈ ps ∧ alookup old k = some ot ∧
    ot.translated ≠ "" ∧ lookupT newT p k = some nu ∧ nu.translated ≠ "" ∧
    nu.translated ≠ ot.translated

/-- Consistency of the reverse index with the fresh maps: every listed
(key, template) slot is present, as extraction guarantees. -/
def IndexReadable (index : List (String × List PPath)) (newT : NewT) : Prop :=
  ∀ k ps, (k, ps) ∈ index → ∀ p ∈ ps, (lookupT newT p k).isSome

/-- A conflicting slot makes the path loop fail. -/
theorem applyPaths_conflict_not_ok (k : String) (ot nu : Translation) (p : PPath)
    (hnu1 : nu.translated ≠ "") (hnu2 : nu.translated ≠ ot.translated) :
    ∀ (ps : List PPath) (acc : NewT), p ∈ ps → lookupT acc p k = some nu →
      ∀ r, applyPaths k ot ps acc ≠ .ok r := by
  intro ps
  induction ps with
  | nil =>
    intro acc hmem _ r
    simp at hmem
  | cons q rest ih =>
    intro acc hmem hread r hok
    rw [applyPaths] at hok
    by_cases hqp : q = p
    · subst hqp
      rw [hread] at hok
      simp only [] at hok
      rw [if_pos ⟨hnu1, hnu2⟩] at hok
      simp at hok
    · cases hq : lookupT acc q k with
      | none =>
        rw [hq] at hok
        simp at hok
      | some nt =>
        rw [hq] at hok
        simp only [] at hok
        by_cases hcond : nt.translated ≠ "" ∧ nt.translated ≠ ot.translated
        · rw [if_pos hcond] at hok
          simp at hok
        · rw [if_neg hcond] at hok
          have hp' : p ∈ rest := by
            rcases List.mem_cons.mp hmem with h | h
            · exact absurd h.symm hqp
            · exact h
          have hpres : lookupT (setT acc q k ot) p k = some nu := by
            rw [lookupT_setT_ne acc q k ot p k (Or.inl (fun he => hqp he.symm))]
            exact hread
          exact ih _ hp' hpres r hok

/-- A conflict anywhere in the index makes the whole merge fail. -/
theorem update_conflict_not_ok (old : Translations) (k : String) (ps : List PPath)
    (t : PPath) (nu ot : Translation)
    (hpath : t ∈ ps) (hold : alookup old k = some ot) (hotne : ot.translated ≠ "")
    (hnu1 : nu.translated ≠ "") (hnu2 : nu.translated ≠ ot.translated) :
    ∀ (index : List (String × List PPath)) (newT : NewT),
      (index.map Prod.fst).Nodup → (k, ps) ∈ index → lookupT newT t k = some nu →
      ∀ r, update_translations index newT old ≠ .ok r := by
  intro index
  induction index with
  | nil =>
    intro newT _ hidx _ r
    simp at hidx
  | cons e rest ih =>
    intro newT hnodup hidx hnew r hok
    obtain ⟨k₀, ps₀⟩ := e
    rw [update_translations] at hok
    by_cases hk : k₀ = k
    · subst hk
      have hknotin : k₀ ∉ rest.map Prod.fst := by
        simpa using (List.nodup_cons.mp hnodup).1
      have hps : ps = ps₀ := by
        rcases List.mem_cons.mp hidx with hh | ht
        · exact congrArg Prod.snd hh
        · exact absurd (List.mem_map.mpr ⟨(k₀, ps), ht, rfl⟩) hknotin
      subst hps
      rw [hold] at hok
      simp only [] at hok
      rw [if_neg hotne] at hok
      cases hap : applyPaths k₀ ot ps newT with
      | error e' =>
        rw [hap] at hok
        simp at hok
      | ok newT' =>
        exact applyPaths_conflict_not_ok k₀ ot nu t hnu1 hnu2 ps newT hpath hnew
          newT' hap
    · have hidx' : (k, ps) ∈ rest := by
        rcases List.mem_cons.mp hidx with hh | ht
        · exact absurd (congrArg Prod.fst hh).symm hk
        · exact ht
      have hnodup' : (rest.map Prod.fst).Nodup := (List.nodup_cons.mp hnodup).2
      cases hold₀ : alookup old k₀ with
      | none =>
        rw [hold₀] at hok
        exact ih newT hnodup' hidx' hnew r hok
      | some ot₀ =>
        rw [hold₀] at hok
        simp only [] at hok
        by_cases hemp : ot₀.translated = ""
        · rw [if_pos hemp] at hok
          exact ih newT hnodup' hidx' hnew r hok
        · rw [if_neg hemp] at hok
          cases hap : applyPaths k₀ ot₀ ps₀ newT with
          | error e' =>
            rw [hap] at hok
            simp at hok
          | ok newT' =>
            rw [hap] at hok
            have hnew' : lookupT newT' t k = some nu := by
              rw [applyPaths_ok_preserve_ne k₀ ot₀ k (fun he => hk he.symm) ps₀ newT
                newT' hap t]
              exact hnew
            exact ih newT' hnodup' hidx' hnew' r hok

/-- Invariant of the merge state: every slot holds either its fresh unit or
the old unit of its key, and no slot disappears. -/
def MergeInv (newT₀ : NewT) (old : Translations) (acc : NewT) : Prop :=
  (∀ p k, (lookupT newT₀ p k).isSome → (lookupT acc p k).isSome) ∧
  (∀ p k v, lookupT acc p k = some v →
    lookupT newT₀ p k = some v ∨ ∃ w, alookup old k = some w ∧ v = w)

/-- The invariant holds initially. -/
theorem mergeInv_init (newT₀ : NewT) (old : Translations) : MergeInv newT₀ old newT₀ :=
  ⟨fun _ _ h => h, fun _ _ _ h => Or.inl h⟩

/-- The invariant is preserved by writing an old unit over a present slot. -/
theorem mergeInv_setT (newT₀ : NewT) (old : Translations) (acc : NewT) (p : PPath)
    (k : String) (ot : Translation) (hold : alookup old k = some ot)
    (hpresent : (lookupT acc p k).isSome) (hinv : MergeInv newT₀ old acc) :
    MergeInv newT₀ old (setT acc p k ot) := by
  obtain ⟨h1, h2⟩ := hinv
  constructor
  · intro p' k' hs
    exact lookupT_setT_isSome acc p k ot p' k' (h1 p' k' hs)
  · intro p' k' v hv
    by_cases hpk : p' = p ∧ k' = k
    · obtain ⟨hp, hk⟩ := hpk
      subst hp
      subst hk
      obtain ⟨w, hw⟩ := Option.isSome_iff_exists.mp hpresent
      rw [lookupT_setT_self acc p' k' ot w hw] at hv
      exact Or.inr ⟨ot, hold, (Option.some.inj hv).symm⟩
    · rw [lookupT_setT_ne acc p k ot p' k' (by tauto)] at hv
      exact h2 p' k' v hv

/-- Classification of the path loop: under the invariant, an error is the
mismatch error for this key and witnesses a genuine conflict against the
original inputs, while success preserves the invariant. -/
theorem applyPaths_error_classify (index₀ : List (String × List PPath)) (newT₀ : NewT)
    (old : Translations) (k : String) (ot : Translation) (psFull : List PPath)
    (hidx : (k, psFull) ∈ index₀) (hold : alookup old k = some ot)
    (hotne : ot.translated ≠ "")
    (hreads : ∀ p ∈ psFull, (lookupT newT₀ p k).isSome) :
    ∀ (ps : List PPath) (acc : NewT), (∀ p ∈ ps, p ∈ psFull) →
      MergeInv newT₀ old acc →
      (∀ e, applyPaths k ot ps acc = .error e →
        e = .mismatch k ∧ ConflictAt index₀ newT₀ old k) ∧
      (∀ acc', applyPaths k ot ps acc = .ok acc' → MergeInv newT₀ old acc') := by
  intro ps
  induction ps with
  | nil =>
    intro acc _ hinv
    constructor
    · intro e he
      simp [applyPaths] at he
    · intro acc' hok
      cases hok
      exact hinv
  | cons p rest ih =>
    intro acc hsub hinv
    have hpfull : p ∈ psFull := hsub p (by simp)
    have hsub' : ∀ q ∈ rest, q ∈ psFull := fun q hq => hsub q (by simp [hq])
    have hsome : (lookupT acc p k).isSome := hinv.1 p k (hreads p hpfull)
    obtain ⟨v, hv⟩ := Option.isSome_iff_exists.mp hsome
    constructor
    · intro e he
      rw [applyPaths, hv] at he
      simp only [] at he
      by_cases hcond : v.translated ≠ "" ∧ v.translated ≠ ot.translated
      · rw [if_pos hcond] at he
        cases he
        refine ⟨rfl, ?_⟩
        rcases hinv.2 p k v hv with hfresh | ⟨w, hw, hvw⟩
        · exact ⟨psFull, p, ot, v, hidx, hpfull, hold, hotne, hfresh, hcond.1, hcond.2⟩
        · rw [hold] at hw
          rw [hvw, Option.some.inj hw] at hcond
          exact absurd rfl hcond.2
      · rw [if_neg hcond] at he
        have hinv' : MergeInv newT₀ old (setT acc p k ot) :=
          mergeInv_setT newT₀ old acc p k ot hold hsome hinv
        exact (ih _ hsub' hinv').1 e he
    · intro acc' hok
      rw [applyPaths, hv] at hok
      simp only [] at hok
      by_cases hcond : v.translated ≠ "" ∧ v.translated ≠ ot.translated
      · rw [if_pos hcond] at hok
        simp at hok
      · rw [if_neg hcond] at hok
        have hinv' : MergeInv newT₀ old (setT acc p k ot) :=
          mergeInv_setT newT₀ old acc p k ot hold hsome hinv
        exact (ih _ hsub' hinv').2 acc' hok

/-- Classification of the whole merge: with a readable index, every failure
is a mismatch error on some genuinely conflicting key. -/
theorem update_error_classify (index₀ : List (String × List PPath)) (newT₀ : NewT)
    (old : Translations) (hWF : IndexReadable index₀ newT₀) :
    ∀ (S : List (String × List PPath)) (acc : NewT),
      (∀ x ∈ S, x ∈ index₀) → MergeInv newT₀ old acc →
      ∀ e, update_translations S acc old = .error e →
        ∃ k', e = .mismatch k' ∧ ConflictAt index₀ newT₀ old k' := by
  intro S
  induction S with
  | nil =>
    intro acc _ _ e he
    simp [update_translations] at he
  | cons x rest ih =>
    intro acc hsub hinv e he
    obtain ⟨k₀, ps₀⟩ := x
    have hx : (k₀, ps₀) ∈ index₀ := hsub _ (by simp)
    have hsub' : ∀ y ∈ rest, y ∈ index₀ := fun y hy => hsub y (by simp [hy])
    rw [update_translations] at he
    cases hold₀ : alookup old k₀ with
    | none =>
      rw [hold₀] at he
      exact ih _ hsub' hinv e he
    | some ot₀ =>
      rw [hold₀] at he
      simp only [] at he
      by_cases hemp : ot₀.translated = ""
      · rw [if_pos hemp] at he
        exact ih _ hsub' hinv e he
      · rw [if_neg hemp] at he
        have hreads : ∀ p ∈ ps₀, (lookupT newT₀ p k₀).isSome := hWF k₀ ps₀ hx
        have hcl := applyPaths_error_classify index₀ newT₀ old k₀ ot₀ ps₀ hx hold₀
          hemp hreads ps₀ acc (fun p hp => hp) hinv
        cases hap : applyPaths k₀ ot₀ ps₀ acc with
        | error e' =>
          rw [hap] at he
          simp only [] at he
          obtain ⟨hek, hconf⟩ := hcl.1 e' hap
          injection he with he'
          exact ⟨k₀, he' ▸ hek, hconf⟩
        | ok acc' =>
          rw [hap] at he
          exact ih _ hsub' (hcl.2 acc' hap) e he

/-- C2: merge detects conflict. When the reverse index is consistent with
the fresh maps and some key carries a non-empty old translation and a
differing non-empty fresh translation, Command.update_translations fails
with a translation-mismatch ValueError whose message names an offending
key, and no merged map is returned for the run. -/
theorem c2_merge_detects_conflict (index : List (String × List PPath)) (newT : NewT)
    (old : Translations) (k : String)
    (hnodup : (index.map Prod.fst).Nodup)
    (hWF : IndexReadable index newT)
    (hconf : ConflictAt index newT old k) :
    ∃ k', update_translations index newT old = .error (.mismatch k') ∧
      ConflictAt index newT old k' := by
  obtain ⟨ps, p, ot, nu, hidx, hpath, hold, hotne, hnew, hnu1, hnu2⟩ := hconf
  cases hres : update_translations index newT old with
  | ok res =>
    exact absurd hres (update_conflict_not_ok old k ps p nu ot hpath hold hotne hnu1
      hnu2 index newT hnodup hidx hnew res)
  | error e =>
    obtain ⟨k', hek, hconf'⟩ := update_error_classify index newT old hWF index newT
      (fun x hx => hx) (mergeInv_init newT old) e hres
    refine ⟨k', ?_, hconf'⟩
    rw [hek]

/-- C2, witnessed: one key whose old text X and fresh text Y disagree makes
the merge return the mismatch error naming that key. -/
theorem c2_merge_detects_conflict_witness :
    ∃ k', update_translations [("k", ["t"])]
        [("t", [("k", (⟨"k", "hi", "Y", [], []⟩ : Translation))])]
        [("k", (⟨"k", "hi", "X", [], []⟩ : Translation))] = .error (.mismatch k') ∧
      ConflictAt [("k", ["t"])] [("t", [("k", ⟨"k", "hi", "Y", [], []⟩)])]
        [("k", ⟨"k", "hi", "X", [], []⟩)] k' :=
  c2_merge_detects_conflict [("k", ["t"])] [("t", [("k", ⟨"k", "hi", "Y", [], []⟩)])]
    [("k", ⟨"k", "hi", "X", [], []⟩)] "k" (by decide)
    (by
      intro k' ps' hmem p hp
      simp only [List.mem_singleton, Prod.mk.injEq] at hmem
      obtain ⟨hk, hps⟩ := hmem
      subst hk
      subst hps
      simp only [List.mem_singleton] at hp
      subst hp
      decide)
    ⟨["t"], "t", ⟨"k", "hi", "X", [], []⟩, ⟨"k", "hi", "Y", [], []⟩,
      by simp, by simp, rfl, by decide, rfl, by decide, by decide⟩

/-! Helper lemmas for the line-crossing behaviour of the span scanner. -/

/-- The inner text of a match never contains a newline: the lazy dot stops
at end of line. -/
theorem scanClosing_no_newline (c : List Char) :
    ∀ t inner rest : List Char, scanClosing c t = some (inner, rest) → '\n' ∉ inner := by
  intro t
  induction t with
  | nil =>
    intro inner rest h
    rw [scanClosing] at h
    by_cases hp : c.isPrefixOf ([] : List Char)
    · rw [if_pos hp] at h
      cases h
      simp
    · rw [if_neg hp] at h
      exact absurd h (by simp)
  | cons a r ih =>
    intro inner rest h
    rw [scanClosing] at h
    by_cases hp : c.isPrefixOf (a :: r)
    · rw [if_pos hp] at h
      cases h
      simp
    · rw [if_neg hp] at h
      by_cases ha : a = '\n'
      · rw [if_pos ha] at h
        exact absurd h (by simp)
      · rw [if_neg ha] at h
        cases hr : scanClosing c r with
        | none =>
          rw [hr] at h
          exact absurd h (by simp)
        | some pr =>
          obtain ⟨i, rst⟩ := pr
          rw [hr] at h
          simp only [Option.map_some'] at h
          injection h with hpair
          injection hpair with hinner hrest
          subst hinner
          intro hmem
          rcases List.mem_cons.mp hmem with h1 | h2
          · exact ha h1.symm
          · exact (ih i rst hr) h2

/-- Every inner text produced by the span scanner is newline-free. -/
theorem findSpansAux_no_newline (o c : List Char) :
    ∀ (fuel : Nat) (text inner : List Char),
      inner ∈ findSpansAux o c fuel text → '\n' ∉ inner := by
  intro fuel
  induction fuel with
  | zero =>
    intro text inner h
    simp [findSpansAux] at h
  | succ fuel ih =>
    intro text inner h
    cases text with
    | nil => simp [findSpansAux] at h
    | cons a r =>
      simp only [findSpansAux] at h
      by_cases hp : o.isPrefixOf (a :: r)
      · rw [if_pos hp] at h
        cases hscan : scanClosing c ((a :: r).drop o.length) with
        | none =>
          rw [hscan] at h
          simp only [] at h
          exact ih _ _ h
        | some pr =>
          obtain ⟨i, rest⟩ := pr
          rw [hscan] at h
          simp only [] at h
          rcases List.mem_cons.mp h with h1 | h2
          · exact h1 ▸ scanClosing_no_newline c _ i rest hscan
          · exact ih _ _ h2
      · rw [if_neg hp] at h
        exact ih _ _ h

/-- When every closing occurrence sits after a newline, the lazy scan for
the closing marker fails. -/
theorem scanClosing_eq_none (c : List Char) :
    ∀ t : List Char, (∀ m, c.isPrefixOf (t.drop m) → '\n' ∈ t.take m) →
      scanClosing c t = none := by
  intro t
  induction t with
  | nil =>
    intro h
    have hnp : ¬ c.isPrefixOf ([] : List Char) := by
      intro hp
      have := h 0 (by simpa using hp)
      simp at this
    rw [scanClosing, if_neg hnp]
  | cons a r ih =>
    intro h
    have hnp : ¬ c.isPrefixOf (a :: r) := by
      intro hp
      have := h 0 (by simpa using hp)
      simp at this
    rw [scanClosing, if_neg hnp]
    by_cases ha : a = '\n'
    · rw [if_pos ha]
    · rw [if_neg ha]
      have hr : scanClosing c r = none := by
        apply ih
        intro m hm
        have := h (m + 1) (by simpa [List.drop_succ_cons] using hm)
        rw [List.take_succ_cons] at this
        rcases List.mem_cons.mp this with h1 | h2
        · exact absurd h1.symm ha
        · exact h2
      rw [hr]
      rfl

/-- Every closing marker occurring after an opening marker is separated
from it by a newline: every candidate span would cross a line. -/
def SpansCrossLines (o c text : List Char) : Prop :=
  ∀ n < text.length, o.isPrefixOf (text.drop n) →
    ∀ m < text.length, c.isPrefixOf ((text.drop (n + o.length)).drop m) →
      '\n' ∈ (text.drop (n + o.length)).take m

/-- Bounded version of scanClosing_eq_none: for a non-empty closing marker
matches only occur inside the text, so the bounded hypothesis suffices. -/
theorem scanClosing_none_of_cross (c : List Char) (hc : c ≠ []) (t : List Char)
    (bound : Nat) (hbound : t.length ≤ bound)
    (h : ∀ m < bound, c.isPrefixOf (t.drop m) → '\n' ∈ t.take m) :
    scanClosing c t = none := by
  apply scanClosing_eq_none
  intro m hpre
  by_cases hm : m < bound
  · exact h m hm hpre
  · exfalso
    have hnil : t.drop m = [] := List.drop_eq_nil_of_le (by omega)
    rw [hnil] at hpre
    cases c with
    | nil => exact hc rfl
    | cons x xs => simp [List.isPrefixOf] at hpre

/-- The crossing property carries over to the tail of the text. -/
theorem SpansCrossLines_tail (o c : List Char) (a : Char) (r : List Char)
    (h : SpansCrossLines o c (a :: r)) : SpansCrossLines o c r := by
  intro n hn hpre m hm hcpre
  have he : n + 1 + o.length = (n + o.length) + 1 := by omega
  have h1 : n + 1 < (a :: r).length := by
    simp only [List.length_cons]
    omega
  have h2 : m < (a :: r).length := by
    simp only [List.length_cons]
    omega
  have hpre' : o.isPrefixOf ((a :: r).drop (n + 1)) := by
    simpa [List.drop_succ_cons] using hpre
  have hcpre' : c.isPrefixOf (((a :: r).drop (n + 1 + o.length)).drop m) := by
    rw [he, List.drop_succ_cons]
    exact hcpre
  have hres := h (n + 1) h1 hpre' m h2 hcpre'
  rw [he, List.drop_succ_cons] at hres
  exact hres

/-- On a text whose candidate spans all cross lines, the scanner finds no
match and substitution is the identity: such spans pass through verbatim. -/
theorem findSpansAux_cross (o c : List Char) (hc : c ≠ [])
    (f : List Char → List Char → List Char) :
    ∀ (fuel : Nat) (text : List Char), SpansCrossLines o c text →
      findSpansAux o c fuel text = [] ∧ regexSubAux o c f fuel text = text := by
  intro fuel
  induction fuel with
  | zero =>
    intro text _
    exact ⟨rfl, rfl⟩
  | succ fuel ih =>
    intro text hcross
    cases text with
    | nil => exact ⟨rfl, rfl⟩
    | cons a r =>
      have htail : SpansCrossLines o c r := SpansCrossLines_tail o c a r hcross
      by_cases hpre : o.isPrefixOf (a :: r)
      · have hscan : scanClosing c ((a :: r).drop o.length) = none := by
          apply scanClosing_none_of_cross c hc _ (a :: r).length
            (by simpa using List.length_drop_le o.length (a :: r))
          intro m hm hcp
          have h0 : (0 : Nat) < (a :: r).length := by simp
          have hres := hcross 0 h0 (by simpa using hpre) m hm
            (by simpa using hcp)
          simpa using hres
        constructor
        · simp only [findSpansAux, if_pos hpre, hscan]
          exact (ih r htail).1
        · simp only [regexSubAux, if_pos hpre, hscan]
          rw [(ih r htail).2]
      · constructor
        · simp only [findSpansAux, if_neg hpre]
          exact (ih r htail).1
        · simp only [regexSubAux, if_neg hpre]
          rw [(ih r htail).2]

/-- C10: marked spans never cross a line. Every inner text the span scanner
yields is newline-free, so extraction produces only single-line units; on a
text where every candidate span crosses a line nothing is matched and
substitution returns the text verbatim; and in a concrete mixed template
the multi-line span passes through unchanged while the single-line span is
substituted. -/
theorem c10_spans_within_line (o c text : List Char)
    (f : List Char → List Char → List Char) (hc : c ≠ []) :
    (∀ inner ∈ findSpans o c text, '\n' ∉ inner) ∧
    (SpansCrossLines o c text →
      findSpans o c text = [] ∧ regexSub o c f text = text) ∧
    regexSub "<$".data "$>".data (fun _ inner => inner) "<$A\nB$> <$C$>".data =
      "<$A\nB$> C".data := by
  refine ⟨?_, ?_, by decide⟩
  · intro inner hmem
    exact findSpansAux_no_newline o c text.length text inner hmem
  · intro hcross
    exact findSpansAux_cross o c hc f text.length text hcross

/-- C10, witnessed on a concrete template whose only span crosses a line:
no match, and substitution is the identity. -/
theorem c10_spans_within_line_witness :
    findSpans ['<', '$'] ['$', '>'] ['<', '$', 'A', '\n', 'B', '$', '>'] = [] ∧
    regexSub ['<', '$'] ['$', '>'] (fun _ inner => inner)
      ['<', '$', 'A', '\n', 'B', '$', '>'] = ['<', '$', 'A', '\n', 'B', '$', '>'] :=
  (c10_spans_within_line ['<', '$'] ['$', '>'] ['<', '$', 'A', '\n', 'B', '$', '>']
    (fun _ inner => inner) (by decide)).2.1
    (by
      intro n hn hpre m hm hcp
      replace hn : n < 7 := hn
      replace hm : m < 7 := hm
      interval_cases n <;> interval_cases m <;> revert hpre hcp <;> decide)

end Pysetta
